import Mathlib

/-!
Shallow embedding of the `small-ord-set` crate (`src/lib.rs`, `src/map.rs`,
`src/entry.rs`): a set represented by a sorted backing vector.

The backing `SmallVec` buffer is modelled as a `List`; inline-versus-heap
storage is a capacity optimisation that does not affect the contents, which is
what every claim here is about.  Rust's `Ord` on the element type is modelled
by a key projection `k : α → β` into a linear order: for plain element types
`k` is the identity, and for `KeyValuePair` it is the `key` field, mirroring
the manual `Ord`/`PartialEq`/`Hash` impls in `src/map.rs` that compare only
the key.  Library primitives the crate delegates to (`binary_search_by`,
`sort`, `dedup`, `insert`/`remove` at an index, `drain`) are modelled from
their documented contracts as executable Lean functions.
-/

/-- Rust struct `KeyValuePair<K, V>` (`src/map.rs`): a key together with an
inert value; comparisons of this type look only at the key. -/
structure KeyValuePair (K V : Type) where
  key : K
  value : V
deriving DecidableEq

/-- Rust struct `SmallOrdSet<A>` (`src/lib.rs`): a wrapper around the backing
`SmallVec` buffer, modelled as the list of its elements in storage order. -/
structure SmallOrdSet (α : Type) where
  vec : List α
deriving DecidableEq

/-- Key projection for `KeyValuePair` elements: the `Ord`, `PartialEq` and
`Hash` impls in `src/map.rs` delegate to the `key` field only. -/
def kvpKey {K V : Type} (p : KeyValuePair K V) : K :=
  p.key

/-- Model of `SmallOrdSet::find` (`src/lib.rs` lines 345-352), which runs
`binary_search_by` comparing each probe's key with `q`: on a buffer sorted by
key it returns `.ok i` when the element at index `i` has key `q`, and
`.error i` with `i` the sort-preserving insertion point otherwise.  The
search is written as the equivalent left-to-right scan driven by the same
three-way comparison; it agrees with binary search on sorted buffers, the
only case in which `binary_search_by` specifies its result. -/
def findList {α β : Type} (k : α → β) [LinearOrder β] : List α → β → Except Nat Nat
  | [], _ => .error 0
  | x :: xs, q =>
    if k x < q then
      match findList k xs q with
      | .ok i => .ok (i + 1)
      | .error i => .error (i + 1)
    else if q < k x then .error 0
    else .ok 0

/-- `SmallOrdSet::find`, lifted to the wrapper struct. -/
def SmallOrdSet.find {α β : Type} (k : α → β) [LinearOrder β] (s : SmallOrdSet α) (q : β) :
    Except Nat Nat :=
  findList k s.vec q

/-- Rust `SmallOrdSet::insert` (`src/lib.rs` lines 197-205): if `find`
succeeds the set is untouched and `false` is returned; otherwise the element
is inserted at the returned insertion index and `true` is returned. -/
def SmallOrdSet.insert {α β : Type} (k : α → β) [LinearOrder β] (s : SmallOrdSet α) (a : α) :
    SmallOrdSet α × Bool :=
  match findList k s.vec (k a) with
  | .ok _ => (s, false)
  | .error i => (⟨s.vec.insertIdx i a⟩, true)

/-- Rust `SmallOrdSet::replace` (`src/lib.rs` lines 221-229): if `find`
succeeds the stored element at that index is swapped for `a` (via
`mem::replace`) and the old element returned; otherwise `a` is inserted at
the insertion index and `none` is returned. -/
def SmallOrdSet.replace {α β : Type} (k : α → β) [LinearOrder β] (s : SmallOrdSet α) (a : α) :
    SmallOrdSet α × Option α :=
  match findList k s.vec (k a) with
  | .ok i => (⟨s.vec.set i a⟩, s.vec[i]?)
  | .error i => (⟨s.vec.insertIdx i a⟩, none)

/-- Rust `SmallOrdSet::remove` (`src/lib.rs` lines 248-257): if `find`
succeeds the element at that index is removed and returned, else `none`. -/
def SmallOrdSet.remove {α β : Type} (k : α → β) [LinearOrder β] (s : SmallOrdSet α) (q : β) :
    SmallOrdSet α × Option α :=
  match findList k s.vec q with
  | .ok i => (⟨s.vec.eraseIdx i⟩, s.vec[i]?)
  | .error _ => (s, none)

/-- Rust `SmallOrdSet::get` (`src/lib.rs` lines 287-296). -/
def SmallOrdSet.get {α β : Type} (k : α → β) [LinearOrder β] (s : SmallOrdSet α) (q : β) :
    Option α :=
  match findList k s.vec q with
  | .ok i => s.vec[i]?
  | .error _ => none

/-- Rust `SmallOrdSet::contains` (`src/lib.rs` lines 274-280). -/
def SmallOrdSet.contains {α β : Type} (k : α → β) [LinearOrder β] (s : SmallOrdSet α) (q : β) :
    Bool :=
  match findList k s.vec q with
  | .ok _ => true
  | .error _ => false

/-- Rust `SmallOrdSet::as_slice` (`src/lib.rs` lines 39-41): the whole
backing buffer, borrowed unchanged; `iter` iterates the same slice. -/
def SmallOrdSet.asSlice {α : Type} (s : SmallOrdSet α) : List α :=
  s.vec

/-- Rust `SmallOrdSet::into_vec` (`src/lib.rs` lines 86-88): the backing
buffer, moved out unchanged. -/
def SmallOrdSet.intoVec {α : Type} (s : SmallOrdSet α) : List α :=
  s.vec

/-- Rust `SmallOrdSet::len` (`src/lib.rs` lines 91-93). -/
def SmallOrdSet.len {α : Type} (s : SmallOrdSet α) : Nat :=
  s.vec.length

/-- Rust `SmallOrdSet::from_vec_unchecked` (`src/lib.rs` lines 133-135):
wraps the buffer with no validation, sorting or deduplication. -/
def SmallOrdSet.fromVecUnchecked {α : Type} (v : List α) : SmallOrdSet α :=
  ⟨v⟩

/-- Model of `SmallVec::dedup` as called by `sort_and_dedup`: removes
consecutive elements equal under the modelled `PartialEq` (key equality),
keeping the first element of each run. -/
def dedupByKey {α β : Type} (k : α → β) [DecidableEq β] : List α → List α
  | [] => []
  | [a] => [a]
  | a :: b :: l =>
    if k a = k b then dedupByKey k (a :: l)
    else a :: dedupByKey k (b :: l)
termination_by l => l.length

/-- Model of `SmallOrdSet::sort_and_dedup` (`src/lib.rs` lines 354-357) on
the bare buffer: a stable sort by the modelled `Ord` (merge sort) followed by
adjacent deduplication keeping the first of each run of equal elements. -/
def sortAndDedupList {α β : Type} (k : α → β) [LinearOrder β] (xs : List α) : List α :=
  dedupByKey k (xs.mergeSort (fun a b => decide (k a ≤ k b)))

/-- `SmallOrdSet::sort_and_dedup`, lifted to the wrapper struct. -/
def SmallOrdSet.sortAndDedup {α β : Type} (k : α → β) [LinearOrder β] (s : SmallOrdSet α) :
    SmallOrdSet α :=
  ⟨sortAndDedupList k s.vec⟩

/-- Rust `SmallOrdSet::from_vec` (`src/lib.rs` lines 167-171):
`from_vec_unchecked` followed by `sort_and_dedup`. -/
def SmallOrdSet.fromVec {α β : Type} (k : α → β) [LinearOrder β] (v : List α) : SmallOrdSet α :=
  SmallOrdSet.sortAndDedup k (SmallOrdSet.fromVecUnchecked v)

/-- Rust `SmallOrdSet::from_buf` (`src/lib.rs` lines 175-177): converts the
inline array into a vector and calls `from_vec`. -/
def SmallOrdSet.fromBuf {α β : Type} (k : α → β) [LinearOrder β] (v : List α) : SmallOrdSet α :=
  SmallOrdSet.fromVec k v

/-- Rust `Extend::extend` for `SmallOrdSet` (`src/lib.rs` lines 417-429):
appends every incoming element to the backing buffer, then re-sorts and
deduplicates the whole buffer. -/
def SmallOrdSet.extend {α β : Type} (k : α → β) [LinearOrder β] (s : SmallOrdSet α)
    (ys : List α) : SmallOrdSet α :=
  SmallOrdSet.sortAndDedup k ⟨s.vec ++ ys⟩

/-- Rust `FromIterator::from_iter` for `SmallOrdSet` (`src/lib.rs` lines
451-462): collects the iterator into a vector and calls `from_vec`. -/
def SmallOrdSet.fromIter {α β : Type} (k : α → β) [LinearOrder β] (ys : List α) : SmallOrdSet α :=
  SmallOrdSet.fromVec k ys

/-- Rust `SmallOrdSet::append` (`src/lib.rs` lines 161-163): drains all of
`other` into `self` via `extend`, leaving `other` empty. -/
def SmallOrdSet.append {α β : Type} (k : α → β) [LinearOrder β] (s other : SmallOrdSet α) :
    SmallOrdSet α × SmallOrdSet α :=
  (SmallOrdSet.extend k s other.vec, ⟨[]⟩)

/-- Model of `SmallOrdSet::drain` (`src/lib.rs` lines 66-71) restricted to
half-open ranges `[start, stop)`, delegating to the backing buffer's
range-draining: on a valid range (`start ≤ stop ≤ len`) it removes the
elements at positions `[start, stop)` and yields them; on an invalid range
it panics, modelled as `none`.  Removal is part of the returned state, so it
happens regardless of how the yielded elements are consumed, matching the
eager-removal contract documented on `drain`. -/
def SmallOrdSet.drain {α : Type} (s : SmallOrdSet α) (start stop : Nat) :
    Option (SmallOrdSet α × List α) :=
  if start ≤ stop ∧ stop ≤ s.vec.length then
    some (⟨s.vec.take start ++ s.vec.drop stop⟩, (s.vec.drop start).take (stop - start))
  else none

/-- Rust `SmallOrdSet::insert_value` (`src/map.rs` lines 31-33): wraps the
key and value in a `KeyValuePair` and delegates to `insert`. -/
def SmallOrdSet.insertValue {K V : Type} [LinearOrder K]
    (m : SmallOrdSet (KeyValuePair K V)) (key : K) (v : V) :
    SmallOrdSet (KeyValuePair K V) × Bool :=
  SmallOrdSet.insert kvpKey m ⟨key, v⟩

/-- Rust `SmallOrdSet::get_value` (`src/map.rs` lines 53-58): delegates to
`get` and projects out the value. -/
def SmallOrdSet.getValue {K V : Type} [LinearOrder K]
    (m : SmallOrdSet (KeyValuePair K V)) (key : K) : Option V :=
  (SmallOrdSet.get kvpKey m key).map KeyValuePair.value

/-- Rust `SmallOrdSet::remove_value` (`src/map.rs` lines 46-48): delegates to
`remove` and projects out the value. -/
def SmallOrdSet.removeValue {K V : Type} [LinearOrder K]
    (m : SmallOrdSet (KeyValuePair K V)) (key : K) :
    SmallOrdSet (KeyValuePair K V) × Option V :=
  let r := SmallOrdSet.remove kvpKey m key
  (r.1, r.2.map KeyValuePair.value)

/-- Rust enum `Entry` (`src/entry.rs` lines 13-18): a cursor over a
found-or-insertion index.  The Rust value also holds the exclusive borrow of
the set; in state-passing style the set travels alongside. -/
inductive SetEntry (K : Type) where
  | occupied (idx : Nat)
  | vacant (idx : Nat) (key : K)
deriving DecidableEq

/-- Rust `SmallOrdSet::entry` (`src/lib.rs` lines 334-343): one `find`, then
an occupied or vacant cursor at the resulting index. -/
def SmallOrdSet.entry {K V : Type} [LinearOrder K]
    (m : SmallOrdSet (KeyValuePair K V)) (key : K) : SetEntry K :=
  match findList kvpKey m.vec key with
  | .ok i => .occupied i
  | .error i => .vacant i key

/-- Rust `Entry::or_insert` (`src/entry.rs` lines 57-62): on an occupied
entry, `into_mut` — no mutation, a mutable reference to the value at the
stored index; on a vacant entry, `insert` — the pair `{key, default}` is
inserted at the precomputed index.  The returned `Nat` is the index the
resulting mutable value reference points at. -/
def SetEntry.orInsert {K V : Type} (m : SmallOrdSet (KeyValuePair K V))
    (e : SetEntry K) (default : V) : SmallOrdSet (KeyValuePair K V) × Nat :=
  match e with
  | .occupied i => (m, i)
  | .vacant i key => (⟨m.vec.insertIdx i ⟨key, default⟩⟩, i)

/-- The composite `set.entry(key).or_insert(default)` used by claim C7. -/
def SmallOrdSet.entryOrInsert {K V : Type} [LinearOrder K]
    (m : SmallOrdSet (KeyValuePair K V)) (key : K) (default : V) :
    SmallOrdSet (KeyValuePair K V) × Nat :=
  SetEntry.orInsert m (SmallOrdSet.entry m key) default

/-- Model of `PartialEq` for `KeyValuePair` (`src/map.rs` lines 95-99): only
the keys are compared. -/
def kvpEqb {K V : Type} [DecidableEq K] (p q : KeyValuePair K V) : Bool :=
  decide (p.key = q.key)

/-- Elementwise list equality by a Boolean test, as in slice `PartialEq`:
equal lengths and elementwise equality. -/
def listEqBy {α : Type} (f : α → α → Bool) : List α → List α → Bool
  | [], [] => true
  | a :: as, b :: bs => f a b && listEqBy f as bs
  | _, _ => false

/-- Model of `PartialEq` for `SmallOrdSet<KeyValuePair>` (`src/lib.rs` lines
510-518): delegates to the backing vector's elementwise `PartialEq`, whose
element equality is `kvpEqb`. -/
def SmallOrdSet.beq {K V : Type} [DecidableEq K]
    (m₁ m₂ : SmallOrdSet (KeyValuePair K V)) : Bool :=
  listEqBy kvpEqb m₁.vec m₂.vec

/-- Model of `Hash` for `SmallOrdSet<KeyValuePair>` (`src/lib.rs` lines
464-472): the set hashes its backing vector, which feeds its length and then
each element to the hasher; `Hash` for `KeyValuePair` (`src/map.rs` lines
89-93) feeds only the key.  The data reaching the hasher is therefore fully
determined by the length and the key sequence. -/
def SmallOrdSet.hashData {K V : Type} (m : SmallOrdSet (KeyValuePair K V)) : Nat × List K :=
  (m.vec.length, m.vec.map KeyValuePair.key)

/-- One mutating operation of claim C1: insert, replace, or remove. -/
inductive SetOp (α β : Type) where
  | ins (a : α)
  | repl (a : α)
  | rem (q : β)

/-- Apply one operation, discarding its return value. -/
def applyOp {α β : Type} (k : α → β) [LinearOrder β] (s : SmallOrdSet α) :
    SetOp α β → SmallOrdSet α
  | .ins a => (SmallOrdSet.insert k s a).1
  | .repl a => (SmallOrdSet.replace k s a).1
  | .rem q => (SmallOrdSet.remove k s q).1

/-- Apply a sequence of operations starting from the empty set. -/
def applyOps {α β : Type} (k : α → β) [LinearOrder β] (ops : List (SetOp α β)) : SmallOrdSet α :=
  ops.foldl (applyOp k) ⟨[]⟩

/-- Invariants I1 and I2 on the bare buffer: strictly increasing by key,
which entails that no two elements compare equal. -/
def SortedKeys {α β : Type} (k : α → β) [LinearOrder β] (xs : List α) : Prop :=
  xs.Pairwise (fun a b => k a < k b)

instance {α β : Type} (k : α → β) [LinearOrder β] (xs : List α) :
    Decidable (SortedKeys k xs) :=
  inferInstanceAs (Decidable (xs.Pairwise _))

/-- Well-formedness of a set: its backing buffer satisfies I1 and I2. -/
def SmallOrdSet.Wf {α β : Type} (k : α → β) [LinearOrder β] (s : SmallOrdSet α) : Prop :=
  SortedKeys k s.vec

instance {α β : Type} (k : α → β) [LinearOrder β] (s : SmallOrdSet α) :
    Decidable (SmallOrdSet.Wf k s) :=
  inferInstanceAs (Decidable (SortedKeys k s.vec))

/-! ### Properties of the search primitive -/

theorem findList_ok_get {α β : Type} (k : α → β) [LinearOrder β] (xs : List α) :
    ∀ (q : β) (i : Nat), findList k xs q = .ok i → ∃ a, xs[i]? = some a ∧ k a = q := by
  induction xs with
  | nil => intro q i h; simp [findList] at h
  | cons x xs ih =>
    intro q i h
    rw [findList] at h
    by_cases h1 : k x < q
    · rw [if_pos h1] at h
      cases hf : findList k xs q with
      | ok j =>
        rw [hf] at h
        cases h
        obtain ⟨a, ha, hk⟩ := ih q j hf
        exact ⟨a, by simpa using ha, hk⟩
      | error j => rw [hf] at h; cases h
    · rw [if_neg h1] at h
      by_cases h2 : q < k x
      · rw [if_pos h2] at h; cases h
      · rw [if_neg h2] at h
        cases h
        exact ⟨x, by simp, le_antisymm (not_lt.mp h2) (not_lt.mp h1)⟩

theorem findList_error_le {α β : Type} (k : α → β) [LinearOrder β] (xs : List α) :
    ∀ (q : β) (i : Nat), findList k xs q = .error i → i ≤ xs.length := by
  induction xs with
  | nil =>
    intro q i h
    rw [findList] at h
    cases h
    simp
  | cons x xs ih =>
    intro q i h
    rw [findList] at h
    by_cases h1 : k x < q
    · rw [if_pos h1] at h
      cases hf : findList k xs q with
      | ok j => rw [hf] at h; cases h
      | error j =>
        rw [hf] at h
        cases h
        simpa using ih q j hf
    · rw [if_neg h1] at h
      by_cases h2 : q < k x
      · rw [if_pos h2] at h; cases h; simp
      · rw [if_neg h2] at h; cases h

theorem findList_error_take {α β : Type} (k : α → β) [LinearOrder β] (xs : List α) :
    ∀ (q : β) (i : Nat), findList k xs q = .error i → ∀ a ∈ xs.take i, k a < q := by
  induction xs with
  | nil => intro q i h a ha; simp at ha
  | cons x xs ih =>
    intro q i h a ha
    rw [findList] at h
    by_cases h1 : k x < q
    · rw [if_pos h1] at h
      cases hf : findList k xs q with
      | ok j => rw [hf] at h; cases h
      | error j =>
        rw [hf] at h
        cases h
        rw [List.take_succ_cons] at ha
        rcases List.mem_cons.mp ha with rfl | ha
        · exact h1
        · exact ih q j hf a ha
    · rw [if_neg h1] at h
      by_cases h2 : q < k x
      · rw [if_pos h2] at h
        cases h
        simp at ha
      · rw [if_neg h2] at h; cases h

theorem findList_error_drop {α β : Type} (k : α → β) [LinearOrder β] (xs : List α) :
    ∀ (q : β) (i : Nat), SortedKeys k xs → findList k xs q = .error i →
      ∀ a ∈ xs.drop i, q < k a := by
  induction xs with
  | nil => intro q i _ h a ha; simp at ha
  | cons x xs ih =>
    intro q i hs h a ha
    rw [findList] at h
    rw [SortedKeys, List.pairwise_cons] at hs
    by_cases h1 : k x < q
    · rw [if_pos h1] at h
      cases hf : findList k xs q with
      | ok j => rw [hf] at h; cases h
      | error j =>
        rw [hf] at h
        cases h
        rw [List.drop_succ_cons] at ha
        exact ih q j hs.2 hf a ha
    · rw [if_neg h1] at h
      by_cases h2 : q < k x
      · rw [if_pos h2] at h
        cases h
        rw [List.drop_zero] at ha
        rcases List.mem_cons.mp ha with rfl | ha
        · exact h2
        · exact h2.trans (hs.1 a ha)
      · rw [if_neg h2] at h; cases h

theorem findList_error_not_mem {α β : Type} (k : α → β) [LinearOrder β] (xs : List α)
    (q : β) (i : Nat) (hs : SortedKeys k xs) (h : findList k xs q = .error i) :
    ∀ y ∈ xs, k y ≠ q := by
  intro y hy
  rcases List.mem_append.mp ((List.take_append_drop i xs).symm ▸ hy) with hy' | hy'
  · exact ne_of_lt (findList_error_take k xs q i h y hy')
  · exact (ne_of_lt (findList_error_drop k xs q i hs h y hy')).symm

theorem findList_eq_ok {α β : Type} (k : α → β) [LinearOrder β] (xs : List α) :
    ∀ (q : β) (i : Nat) (a : α), SortedKeys k xs → xs[i]? = some a → k a = q →
      findList k xs q = .ok i := by
  induction xs with
  | nil => intro q i a _ ha _; simp at ha
  | cons x xs ih =>
    intro q i a hs ha hk
    rw [SortedKeys, List.pairwise_cons] at hs
    cases i with
    | zero =>
      rw [List.getElem?_cons_zero] at ha
      cases ha
      rw [findList, if_neg (by simp [hk]), if_neg (by simp [hk])]
    | succ j =>
      rw [List.getElem?_cons_succ] at ha
      have hmem : a ∈ xs := List.getElem?_mem ha
      have hxa : k x < q := hk ▸ hs.1 a hmem
      rw [findList, if_pos hxa, ih q j a hs.2 ha hk]

theorem findList_isOk_of_mem {α β : Type} (k : α → β) [LinearOrder β] (xs : List α)
    (q : β) (y : α) (hs : SortedKeys k xs) (hy : y ∈ xs) (hk : k y = q) :
    ∃ i, findList k xs q = .ok i := by
  obtain ⟨n, hn, rfl⟩ := List.getElem_of_mem hy
  exact ⟨n, findList_eq_ok k xs q n _ hs (List.getElem?_eq_getElem hn) hk⟩

/-! ### Preservation of the sorted-unique invariant -/

theorem insertIdx_eq_take_cons_drop {α : Type} (a : α) :
    ∀ (i : Nat) (xs : List α), i ≤ xs.length →
      xs.insertIdx i a = xs.take i ++ a :: xs.drop i
  | 0, xs, _ => by simp [List.insertIdx_zero]
  | i + 1, [], h => by simp at h
  | i + 1, x :: xs, h => by
    rw [List.insertIdx_succ_cons, insertIdx_eq_take_cons_drop a i xs (Nat.le_of_succ_le_succ h),
      List.take_succ_cons, List.drop_succ_cons, List.cons_append]

theorem getElem?_insertIdx_self {α : Type} (a : α) (i : Nat) (xs : List α)
    (h : i ≤ xs.length) : (xs.insertIdx i a)[i]? = some a := by
  rw [insertIdx_eq_take_cons_drop a i xs h]
  rw [List.getElem?_append_right (by rw [List.length_take]; exact Nat.min_le_left i xs.length)]
  simp [List.length_take, Nat.min_eq_left h]

theorem sortedKeys_insertIdx {α β : Type} (k : α → β) [LinearOrder β] (xs : List α)
    (a : α) (i : Nat) (hs : SortedKeys k xs) (hf : findList k xs (k a) = .error i) :
    SortedKeys k (xs.insertIdx i a) := by
  have hle : i ≤ xs.length := findList_error_le k xs (k a) i hf
  have htake := findList_error_take k xs (k a) i hf
  have hdrop := findList_error_drop k xs (k a) i hs hf
  have hsplit : SortedKeys k (xs.take i ++ xs.drop i) := by
    rw [SortedKeys] at hs ⊢
    rw [List.take_append_drop]
    exact hs
  rw [SortedKeys, List.pairwise_append] at hsplit
  rw [SortedKeys, insertIdx_eq_take_cons_drop a i xs hle, List.pairwise_append]
  refine ⟨hsplit.1, ?_, ?_⟩
  · rw [List.pairwise_cons]
    exact ⟨fun y hy => hdrop y hy, hsplit.2.1⟩
  · intro y hy z hz
    rcases List.mem_cons.mp hz with rfl | hz
    · exact htake y hy
    · exact hsplit.2.2 y hy z hz

theorem sortedKeys_set {α β : Type} (k : α → β) [LinearOrder β] :
    ∀ (xs : List α) (i : Nat) (a old : α), SortedKeys k xs → xs[i]? = some old →
      k old = k a → SortedKeys k (xs.set i a)
  | [], i, a, old, _, ha, _ => by simp at ha
  | x :: xs, 0, a, old, hs, ha, hk => by
    rw [List.getElem?_cons_zero] at ha
    cases ha
    rw [SortedKeys, List.pairwise_cons] at hs
    rw [List.set_cons_zero, SortedKeys, List.pairwise_cons]
    exact ⟨fun y hy => hk ▸ hs.1 y hy, hs.2⟩
  | x :: xs, i + 1, a, old, hs, ha, hk => by
    rw [List.getElem?_cons_succ] at ha
    rw [SortedKeys, List.pairwise_cons] at hs
    rw [List.set_cons_succ, SortedKeys, List.pairwise_cons]
    refine ⟨?_, sortedKeys_set k xs i a old hs.2 ha hk⟩
    intro y hy
    rcases List.mem_or_eq_of_mem_set hy with hy' | rfl
    · exact hs.1 y hy'
    · exact hk ▸ hs.1 old (List.getElem?_mem ha)

theorem sortedKeys_eraseIdx {α β : Type} (k : α → β) [LinearOrder β] (xs : List α)
    (i : Nat) (hs : SortedKeys k xs) : SortedKeys k (xs.eraseIdx i) :=
  List.Pairwise.sublist (List.eraseIdx_sublist xs i) hs

theorem sortedKeys_key_inj {α β : Type} (k : α → β) [LinearOrder β] :
    ∀ (xs : List α) (y z : α), SortedKeys k xs → y ∈ xs → z ∈ xs → k y = k z → y = z
  | [], y, z, _, hy, _, _ => by simp at hy
  | x :: xs, y, z, hs, hy, hz, hk => by
    rw [SortedKeys, List.pairwise_cons] at hs
    rcases List.mem_cons.mp hy with rfl | hy' <;> rcases List.mem_cons.mp hz with rfl | hz'
    · rfl
    · exact absurd hk (ne_of_lt (hs.1 z hz'))
    · exact absurd hk.symm (ne_of_lt (hs.1 y hy'))
    · exact sortedKeys_key_inj k xs y z hs.2 hy' hz' hk

theorem wf_insert_fst {α β : Type} (k : α → β) [LinearOrder β] (s : SmallOrdSet α) (a : α)
    (hs : SmallOrdSet.Wf k s) : SmallOrdSet.Wf k (SmallOrdSet.insert k s a).1 := by
  unfold SmallOrdSet.insert
  cases hf : findList k s.vec (k a) with
  | ok i => exact hs
  | error i => exact sortedKeys_insertIdx k s.vec a i hs hf

theorem wf_replace_fst {α β : Type} (k : α → β) [LinearOrder β] (s : SmallOrdSet α) (a : α)
    (hs : SmallOrdSet.Wf k s) : SmallOrdSet.Wf k (SmallOrdSet.replace k s a).1 := by
  unfold SmallOrdSet.replace
  cases hf : findList k s.vec (k a) with
  | ok i =>
    obtain ⟨old, hold, hk⟩ := findList_ok_get k s.vec (k a) i hf
    exact sortedKeys_set k s.vec i a old hs hold hk
  | error i => exact sortedKeys_insertIdx k s.vec a i hs hf

theorem wf_remove_fst {α β : Type} (k : α → β) [LinearOrder β] (s : SmallOrdSet α) (q : β)
    (hs : SmallOrdSet.Wf k s) : SmallOrdSet.Wf k (SmallOrdSet.remove k s q).1 := by
  unfold SmallOrdSet.remove
  cases hf : findList k s.vec q with
  | ok i => exact sortedKeys_eraseIdx k s.vec i hs
  | error i => exact hs

theorem wf_applyOp {α β : Type} (k : α → β) [LinearOrder β] (s : SmallOrdSet α)
    (op : SetOp α β) (hs : SmallOrdSet.Wf k s) : SmallOrdSet.Wf k (applyOp k s op) := by
  cases op with
  | ins a => exact wf_insert_fst k s a hs
  | repl a => exact wf_replace_fst k s a hs
  | rem q => exact wf_remove_fst k s q hs

theorem wf_foldl_applyOp {α β : Type} (k : α → β) [LinearOrder β] :
    ∀ (ops : List (SetOp α β)) (s : SmallOrdSet α), SmallOrdSet.Wf k s →
      SmallOrdSet.Wf k (ops.foldl (applyOp k) s)
  | [], _, hs => hs
  | op :: ops, s, hs =>
    wf_foldl_applyOp k ops (applyOp k s op) (wf_applyOp k s op hs)

theorem wf_applyOps {α β : Type} (k : α → β) [LinearOrder β] (ops : List (SetOp α β)) :
    SmallOrdSet.Wf k (applyOps k ops) :=
  wf_foldl_applyOp k ops ⟨[]⟩ (List.Pairwise.nil)

/-! ### Claim theorems -/

/-- C1: for every sequence of insert, remove and replace operations starting
from an empty `SmallOrdSet`, the contents read via ascending iteration
(`as_slice`/`iter`) are strictly increasing under the element ordering (I1)
and contain no two elements that compare equal (I2). -/
theorem c1_ops_preserve_sorted_unique {α β : Type} (k : α → β) [LinearOrder β]
    (ops : List (SetOp α β)) :
    (SmallOrdSet.asSlice (applyOps k ops)).Pairwise (fun a b => k a < k b) ∧
    (SmallOrdSet.asSlice (applyOps k ops)).Pairwise (fun a b => k a ≠ k b) := by
  have h : SmallOrdSet.Wf k (applyOps k ops) := wf_applyOps k ops
  exact ⟨h, h.imp ne_of_lt⟩

theorem sortedKeys_idx_unique {α β : Type} (k : α → β) [LinearOrder β] (xs : List α)
    (i j : Nat) (y z : α) (hs : SortedKeys k xs) (hi : xs[i]? = some y)
    (hj : xs[j]? = some z) (hk : k y = k z) : i = j := by
  have hi' : i < xs.length := by
    by_contra hlt
    rw [List.getElem?_eq_none (Nat.le_of_not_lt hlt)] at hi
    cases hi
  have hj' : j < xs.length := by
    by_contra hlt
    rw [List.getElem?_eq_none (Nat.le_of_not_lt hlt)] at hj
    cases hj
  rw [List.getElem?_eq_getElem hi'] at hi
  rw [List.getElem?_eq_getElem hj'] at hj
  cases hi
  cases hj
  rw [SortedKeys, List.pairwise_iff_getElem] at hs
  rcases Nat.lt_trichotomy i j with hlt | heq | hgt
  · exact absurd hk (ne_of_lt (hs i j hi' hj' hlt))
  · exact heq
  · exact absurd hk.symm (ne_of_lt (hs j i hj' hi' hgt))

/-- C2: `insert(x)` returns `true` iff no element equal to `x` (under the
modelled ordering) was present immediately before the call; in that case the
length grows by exactly one, and otherwise the set — in particular the
pre-existing equal element — is unchanged. -/
theorem c2_insert_spec {α β : Type} (k : α → β) [LinearOrder β] (s : SmallOrdSet α) (a : α)
    (hs : SmallOrdSet.Wf k s) :
    ((SmallOrdSet.insert k s a).2 = true ↔ ∀ y ∈ s.vec, k y ≠ k a) ∧
    ((SmallOrdSet.insert k s a).2 = true →
      SmallOrdSet.len (SmallOrdSet.insert k s a).1 = SmallOrdSet.len s + 1) ∧
    ((SmallOrdSet.insert k s a).2 = false → (SmallOrdSet.insert k s a).1 = s) := by
  unfold SmallOrdSet.insert SmallOrdSet.len
  cases hf : findList k s.vec (k a) with
  | ok i =>
    refine ⟨⟨fun h => absurd h Bool.false_ne_true, fun h => ?_⟩,
      fun h => absurd h Bool.false_ne_true, fun _ => rfl⟩
    obtain ⟨y, hy, hk⟩ := findList_ok_get k s.vec (k a) i hf
    exact absurd hk (h y (List.getElem?_mem hy))
  | error i =>
    refine ⟨⟨fun _ => findList_error_not_mem k s.vec (k a) i hs hf, fun _ => rfl⟩,
      fun _ => ?_, fun h => absurd h (by simp)⟩
    exact List.length_insertIdx i s.vec (findList_error_le k s.vec (k a) i hf)

/-- Witness for C2 at the concrete sorted set `{1, 3}` and element `2`. -/
theorem c2_insert_spec_witness :
    SmallOrdSet.Wf (fun n : Int => n) ⟨[1, 3]⟩ ∧
    (((SmallOrdSet.insert (fun n : Int => n) ⟨[1, 3]⟩ 2).2 = true ↔
        ∀ y ∈ (SmallOrdSet.fromVecUnchecked [1, 3]).vec, (fun n : Int => n) y ≠ 2) ∧
      ((SmallOrdSet.insert (fun n : Int => n) ⟨[1, 3]⟩ 2).2 = true →
        SmallOrdSet.len (SmallOrdSet.insert (fun n : Int => n) ⟨[1, 3]⟩ 2).1 =
          SmallOrdSet.len ⟨[1, 3]⟩ + 1) ∧
      ((SmallOrdSet.insert (fun n : Int => n) ⟨[1, 3]⟩ 2).2 = false →
        (SmallOrdSet.insert (fun n : Int => n) ⟨[1, 3]⟩ 2).1 = ⟨[1, 3]⟩)) :=
  ⟨by decide, c2_insert_spec (fun n : Int => n) ⟨[1, 3]⟩ 2 (by decide)⟩

/-- C4: `replace(x)` returns `Some` of the previously stored equal element
iff one existed (`None` otherwise); afterwards `x` itself is stored, the old
equal element (when distinct from `x`) is gone, and when no equal element
existed `x` is inserted at the sort-preserving position with every previous
element retained. -/
theorem c4_replace_spec {α β : Type} (k : α → β) [LinearOrder β] (s : SmallOrdSet α) (a : α)
    (hs : SmallOrdSet.Wf k s) :
    ((SmallOrdSet.replace k s a).2.isSome ↔ ∃ y ∈ s.vec, k y = k a) ∧
    (∀ y, (SmallOrdSet.replace k s a).2 = some y → y ∈ s.vec ∧ k y = k a) ∧
    a ∈ (SmallOrdSet.replace k s a).1.vec ∧
    (∀ y, (SmallOrdSet.replace k s a).2 = some y → y ≠ a →
      y ∉ (SmallOrdSet.replace k s a).1.vec) ∧
    ((SmallOrdSet.replace k s a).2 = none → ∀ y ∈ s.vec, y ∈ (SmallOrdSet.replace k s a).1.vec) ∧
    SmallOrdSet.Wf k (SmallOrdSet.replace k s a).1 := by
  unfold SmallOrdSet.replace
  cases hf : findList k s.vec (k a) with
  | ok i =>
    obtain ⟨old, hold, hk⟩ := findList_ok_get k s.vec (k a) i hf
    have hi : i < s.vec.length := by
      by_contra hlt
      rw [List.getElem?_eq_none (Nat.le_of_not_lt hlt)] at hold
      cases hold
    dsimp only
    refine ⟨?_, ?_, ?_, ?_, ?_, ?_⟩
    · rw [hold]
      exact ⟨fun _ => ⟨old, List.getElem?_mem hold, hk⟩, fun _ => rfl⟩
    · intro y hy
      rw [hold] at hy
      cases hy
      exact ⟨List.getElem?_mem hold, hk⟩
    · exact List.mem_set s.vec i hi a
    · intro y hy hne hmem
      rw [hold] at hy
      cases hy
      obtain ⟨j, hj⟩ := List.getElem?_of_mem hmem
      by_cases hij : j = i
      · subst hij
        rw [List.getElem?_set_self hi] at hj
        cases hj
        exact hne rfl
      · rw [List.getElem?_set_ne (Ne.symm hij)] at hj
        exact hij (sortedKeys_idx_unique k s.vec j i old old hs hj hold rfl)
    · intro hnone
      rw [hold] at hnone
      cases hnone
    · exact sortedKeys_set k s.vec i a old hs hold hk
  | error i =>
    have hle : i ≤ s.vec.length := findList_error_le k s.vec (k a) i hf
    dsimp only
    refine ⟨?_, ?_, ?_, ?_, ?_, ?_⟩
    · simp only [Option.isSome_none, Bool.false_eq_true, false_iff]
      intro ⟨y, hy, hk⟩
      exact findList_error_not_mem k s.vec (k a) i hs hf y hy hk
    · intro y hy
      cases hy
    · exact (List.mem_insertIdx hle).mpr (Or.inl rfl)
    · intro y hy
      cases hy
    · intro _ y hy
      exact (List.mem_insertIdx hle).mpr (Or.inr hy)
    · exact sortedKeys_insertIdx k s.vec a i hs hf

/-- Witness for C4 at the concrete sorted set `{1, 2, 3}` and element `2`. -/
theorem c4_replace_spec_witness :
    SmallOrdSet.Wf (fun n : Int => n) ⟨[1, 2, 3]⟩ ∧
    (((SmallOrdSet.replace (fun n : Int => n) ⟨[1, 2, 3]⟩ 2).2.isSome ↔
        ∃ y ∈ (SmallOrdSet.fromVecUnchecked [1, 2, 3]).vec, (fun n : Int => n) y = 2) ∧
      (∀ y, (SmallOrdSet.replace (fun n : Int => n) ⟨[1, 2, 3]⟩ 2).2 = some y →
        y ∈ (SmallOrdSet.fromVecUnchecked [1, 2, 3]).vec ∧ (fun n : Int => n) y = 2) ∧
      (2 : Int) ∈ (SmallOrdSet.replace (fun n : Int => n) ⟨[1, 2, 3]⟩ 2).1.vec ∧
      (∀ y, (SmallOrdSet.replace (fun n : Int => n) ⟨[1, 2, 3]⟩ 2).2 = some y → y ≠ 2 →
        y ∉ (SmallOrdSet.replace (fun n : Int => n) ⟨[1, 2, 3]⟩ 2).1.vec) ∧
      ((SmallOrdSet.replace (fun n : Int => n) ⟨[1, 2, 3]⟩ 2).2 = none →
        ∀ y ∈ (SmallOrdSet.fromVecUnchecked [1, 2, 3]).vec,
          y ∈ (SmallOrdSet.replace (fun n : Int => n) ⟨[1, 2, 3]⟩ 2).1.vec) ∧
      SmallOrdSet.Wf (fun n : Int => n) (SmallOrdSet.replace (fun n : Int => n) ⟨[1, 2, 3]⟩ 2).1) :=
  ⟨by decide, c4_replace_spec (fun n : Int => n) ⟨[1, 2, 3]⟩ 2 (by decide)⟩

/-- Counterexample for C3 as stated over every map state: on the map
`{0 ↦ 5}`, `insert_value(0, 7)` finds an equal key, performs no mutation
(the insert path keeps the stored pair), so the following `get_value(&0)`
returns `some 5`, not `some 7`. -/
theorem c3_counterexample :
    ¬ (SmallOrdSet.getValue
        (SmallOrdSet.insertValue
          (SmallOrdSet.fromVecUnchecked [⟨0, 5⟩] : SmallOrdSet (KeyValuePair Int Int)) 0 7).1
        0 = some 7) := by
  decide

/-- C3 (amended): for every well-formed map state in which no pair with key
`k` is present, `insert_value(k, v)` followed by `get_value(&k)` returns
`some v`; `remove_value(&k)` after that returns `some v`, and a
`get_value(&k)` after the removal returns `none`. -/
theorem c3_map_roundtrip {K V : Type} [LinearOrder K] (m : SmallOrdSet (KeyValuePair K V))
    (key : K) (v : V) (hm : SmallOrdSet.Wf kvpKey m)
    (habs : ∀ p ∈ m.vec, kvpKey p ≠ key) :
    SmallOrdSet.getValue (SmallOrdSet.insertValue m key v).1 key = some v ∧
    (SmallOrdSet.removeValue (SmallOrdSet.insertValue m key v).1 key).2 = some v ∧
    SmallOrdSet.getValue
      (SmallOrdSet.removeValue (SmallOrdSet.insertValue m key v).1 key).1 key = none := by
  cases hf : findList kvpKey m.vec key with
  | ok i =>
    obtain ⟨p, hp, hk⟩ := findList_ok_get kvpKey m.vec key i hf
    exact absurd hk (habs p (List.getElem?_mem hp))
  | error i =>
    have hle : i ≤ m.vec.length := findList_error_le kvpKey m.vec key i hf
    have hwf1 : SortedKeys kvpKey (m.vec.insertIdx i ⟨key, v⟩) :=
      sortedKeys_insertIdx kvpKey m.vec ⟨key, v⟩ i hm hf
    have hget1 : (m.vec.insertIdx i (⟨key, v⟩ : KeyValuePair K V))[i]? = some ⟨key, v⟩ :=
      getElem?_insertIdx_self ⟨key, v⟩ i m.vec hle
    have hfind1 : findList kvpKey (m.vec.insertIdx i ⟨key, v⟩) key = .ok i :=
      findList_eq_ok kvpKey _ key i ⟨key, v⟩ hwf1 hget1 rfl
    have hins : (SmallOrdSet.insertValue m key v).1 = ⟨m.vec.insertIdx i ⟨key, v⟩⟩ := by
      unfold SmallOrdSet.insertValue SmallOrdSet.insert
      have hf' : findList kvpKey m.vec (kvpKey (⟨key, v⟩ : KeyValuePair K V)) = .error i := hf
      rw [hf']
    have hrem : SmallOrdSet.removeValue (SmallOrdSet.insertValue m key v).1 key =
        (⟨(m.vec.insertIdx i ⟨key, v⟩).eraseIdx i⟩,
          ((m.vec.insertIdx i (⟨key, v⟩ : KeyValuePair K V))[i]?).map KeyValuePair.value) := by
      rw [hins]
      unfold SmallOrdSet.removeValue SmallOrdSet.remove
      rw [hfind1]
    refine ⟨?_, ?_, ?_⟩
    · rw [hins]
      unfold SmallOrdSet.getValue SmallOrdSet.get
      rw [hfind1]
      dsimp only
      rw [hget1]
      rfl
    · rw [hrem]
      dsimp only
      rw [hget1]
      rfl
    · rw [hrem]
      dsimp only
      rw [List.eraseIdx_insertIdx i m.vec]
      unfold SmallOrdSet.getValue SmallOrdSet.get
      rw [hf]
      rfl

/-- Witness for the amended C3 at the concrete map `{0 ↦ 5}` with fresh key
`1` and value `7`. -/
theorem c3_map_roundtrip_witness :
    (SmallOrdSet.Wf kvpKey
        (SmallOrdSet.fromVecUnchecked [⟨0, 5⟩] : SmallOrdSet (KeyValuePair Int Int)) ∧
      ∀ p ∈ (SmallOrdSet.fromVecUnchecked [⟨0, 5⟩] : SmallOrdSet (KeyValuePair Int Int)).vec,
        kvpKey p ≠ 1) ∧
    (SmallOrdSet.getValue
        (SmallOrdSet.insertValue
          (SmallOrdSet.fromVecUnchecked [⟨0, 5⟩] : SmallOrdSet (KeyValuePair Int Int)) 1 7).1
        1 = some 7 ∧
      (SmallOrdSet.removeValue
          (SmallOrdSet.insertValue
            (SmallOrdSet.fromVecUnchecked [⟨0, 5⟩] : SmallOrdSet (KeyValuePair Int Int)) 1 7).1
          1).2 = some 7 ∧
      SmallOrdSet.getValue
          (SmallOrdSet.removeValue
            (SmallOrdSet.insertValue
              (SmallOrdSet.fromVecUnchecked [⟨0, 5⟩] : SmallOrdSet (KeyValuePair Int Int)) 1 7).1
            1).1 1 = none) :=
  ⟨⟨by decide, by decide⟩,
    c3_map_roundtrip (SmallOrdSet.fromVecUnchecked [⟨0, 5⟩]) 1 7 (by decide) (by decide)⟩

theorem entryOrInsert_ok {K V : Type} [LinearOrder K] (m : SmallOrdSet (KeyValuePair K V))
    (key : K) (d : V) (i : Nat) (hf : findList kvpKey m.vec key = .ok i) :
    SmallOrdSet.entryOrInsert m key d = (m, i) := by
  unfold SmallOrdSet.entryOrInsert SmallOrdSet.entry SetEntry.orInsert
  rw [hf]

theorem entryOrInsert_error {K V : Type} [LinearOrder K] (m : SmallOrdSet (KeyValuePair K V))
    (key : K) (d : V) (i : Nat) (hf : findList kvpKey m.vec key = .error i) :
    SmallOrdSet.entryOrInsert m key d = (⟨m.vec.insertIdx i ⟨key, d⟩⟩, i) := by
  unfold SmallOrdSet.entryOrInsert SmallOrdSet.entry SetEntry.orInsert
  rw [hf]

theorem entryOrInsert_post {K V : Type} [LinearOrder K] (m : SmallOrdSet (KeyValuePair K V))
    (key : K) (d : V) (hm : SmallOrdSet.Wf kvpKey m) :
    SmallOrdSet.Wf kvpKey (SmallOrdSet.entryOrInsert m key d).1 ∧
    ∃ p, (SmallOrdSet.entryOrInsert m key d).1.vec[(SmallOrdSet.entryOrInsert m key d).2]? =
        some p ∧ kvpKey p = key := by
  cases hf : findList kvpKey m.vec key with
  | ok i =>
    rw [entryOrInsert_ok m key d i hf]
    obtain ⟨p, hp, hk⟩ := findList_ok_get kvpKey m.vec key i hf
    exact ⟨hm, p, hp, hk⟩
  | error i =>
    rw [entryOrInsert_error m key d i hf]
    have hle : i ≤ m.vec.length := findList_error_le kvpKey m.vec key i hf
    refine ⟨sortedKeys_insertIdx kvpKey m.vec ⟨key, d⟩ i hm hf, ⟨key, d⟩, ?_, rfl⟩
    exact getElem?_insertIdx_self ⟨key, d⟩ i m.vec hle

/-- C7: `entry(k).or_insert(d)` is idempotent — repeating it with the same
key and default leaves the set identical (no structural mutation, length
unchanged), returns the same value index, and the stored value read through
that index is the same both times. -/
theorem c7_or_insert_idempotent {K V : Type} [LinearOrder K]
    (m : SmallOrdSet (KeyValuePair K V)) (key : K) (d : V)
    (hm : SmallOrdSet.Wf kvpKey m) :
    (SmallOrdSet.entryOrInsert (SmallOrdSet.entryOrInsert m key d).1 key d).1 =
      (SmallOrdSet.entryOrInsert m key d).1 ∧
    (SmallOrdSet.entryOrInsert (SmallOrdSet.entryOrInsert m key d).1 key d).2 =
      (SmallOrdSet.entryOrInsert m key d).2 ∧
    SmallOrdSet.len (SmallOrdSet.entryOrInsert (SmallOrdSet.entryOrInsert m key d).1 key d).1 =
      SmallOrdSet.len (SmallOrdSet.entryOrInsert m key d).1 ∧
    ((SmallOrdSet.entryOrInsert (SmallOrdSet.entryOrInsert m key d).1 key d).1.vec[
        (SmallOrdSet.entryOrInsert (SmallOrdSet.entryOrInsert m key d).1 key d).2]?).map
        KeyValuePair.value =
      ((SmallOrdSet.entryOrInsert m key d).1.vec[
        (SmallOrdSet.entryOrInsert m key d).2]?).map KeyValuePair.value := by
  obtain ⟨hw1, p, hp, hkp⟩ := entryOrInsert_post m key d hm
  have h2 : SmallOrdSet.entryOrInsert (SmallOrdSet.entryOrInsert m key d).1 key d =
      ((SmallOrdSet.entryOrInsert m key d).1, (SmallOrdSet.entryOrInsert m key d).2) :=
    entryOrInsert_ok _ key d _
      (findList_eq_ok kvpKey _ key _ p hw1 hp hkp)
  rw [h2]
  exact ⟨rfl, rfl, rfl, rfl⟩

/-- Witness for C7 at the empty map, key `0` and default value `5`. -/
theorem c7_or_insert_idempotent_witness :
    SmallOrdSet.Wf kvpKey (SmallOrdSet.fromVecUnchecked [] : SmallOrdSet (KeyValuePair Int Int)) ∧
    ((SmallOrdSet.entryOrInsert
        (SmallOrdSet.entryOrInsert
          (SmallOrdSet.fromVecUnchecked [] : SmallOrdSet (KeyValuePair Int Int)) 0 5).1 0 5).1 =
      (SmallOrdSet.entryOrInsert
        (SmallOrdSet.fromVecUnchecked [] : SmallOrdSet (KeyValuePair Int Int)) 0 5).1 ∧
    (SmallOrdSet.entryOrInsert
        (SmallOrdSet.entryOrInsert
          (SmallOrdSet.fromVecUnchecked [] : SmallOrdSet (KeyValuePair Int Int)) 0 5).1 0 5).2 =
      (SmallOrdSet.entryOrInsert
        (SmallOrdSet.fromVecUnchecked [] : SmallOrdSet (KeyValuePair Int Int)) 0 5).2 ∧
    SmallOrdSet.len (SmallOrdSet.entryOrInsert
        (SmallOrdSet.entryOrInsert
          (SmallOrdSet.fromVecUnchecked [] : SmallOrdSet (KeyValuePair Int Int)) 0 5).1 0 5).1 =
      SmallOrdSet.len (SmallOrdSet.entryOrInsert
        (SmallOrdSet.fromVecUnchecked [] : SmallOrdSet (KeyValuePair Int Int)) 0 5).1 ∧
    ((SmallOrdSet.entryOrInsert
        (SmallOrdSet.entryOrInsert
          (SmallOrdSet.fromVecUnchecked [] : SmallOrdSet (KeyValuePair Int Int)) 0 5).1 0 5).1.vec[
        (SmallOrdSet.entryOrInsert
          (SmallOrdSet.entryOrInsert
            (SmallOrdSet.fromVecUnchecked [] : SmallOrdSet (KeyValuePair Int Int)) 0 5).1
          0 5).2]?).map KeyValuePair.value =
      ((SmallOrdSet.entryOrInsert
          (SmallOrdSet.fromVecUnchecked [] : SmallOrdSet (KeyValuePair Int Int)) 0 5).1.vec[
        (SmallOrdSet.entryOrInsert
          (SmallOrdSet.fromVecUnchecked [] : SmallOrdSet (KeyValuePair Int Int))
          0 5).2]?).map KeyValuePair.value) :=
  ⟨by decide,
    c7_or_insert_idempotent (SmallOrdSet.fromVecUnchecked []) 0 5 (by decide)⟩

/-! ### Properties of sort-and-dedup -/

theorem dedupByKey_sublist {α β : Type} (k : α → β) [DecidableEq β] :
    ∀ (l : List α), List.Sublist (dedupByKey k l) l
  | [] => by simp [dedupByKey]
  | [a] => by simp [dedupByKey]
  | a :: b :: l => by
    by_cases h : k a = k b
    · rw [dedupByKey, if_pos h]
      exact (dedupByKey_sublist k (a :: l)).trans
        (List.cons_sublist_cons.mpr (List.sublist_cons_self b l))
    · rw [dedupByKey, if_neg h]
      exact List.cons_sublist_cons.mpr (dedupByKey_sublist k (b :: l))
termination_by l => l.length

theorem dedupByKey_keys {α β : Type} (k : α → β) [DecidableEq β] :
    ∀ (l : List α) (q : β), (∃ y ∈ l, k y = q) → ∃ y ∈ dedupByKey k l, k y = q
  | [], q, h => by simp at h
  | [a], q, h => by simpa [dedupByKey] using h
  | a :: b :: l, q, h => by
    by_cases hab : k a = k b
    · rw [dedupByKey, if_pos hab]
      apply dedupByKey_keys k (a :: l) q
      obtain ⟨y, hy, hk⟩ := h
      rcases List.mem_cons.mp hy with rfl | hy'
      · exact ⟨y, List.mem_cons_self y l, hk⟩
      rcases List.mem_cons.mp hy' with rfl | hy''
      · exact ⟨a, List.mem_cons_self a l, hab.trans hk⟩
      · exact ⟨y, List.mem_cons_of_mem a hy'', hk⟩
    · rw [dedupByKey, if_neg hab]
      obtain ⟨y, hy, hk⟩ := h
      rcases List.mem_cons.mp hy with rfl | hy'
      · exact ⟨y, List.mem_cons_self y _, hk⟩
      · obtain ⟨z, hz, hkz⟩ := dedupByKey_keys k (b :: l) q ⟨y, hy', hk⟩
        exact ⟨z, List.mem_cons_of_mem a hz, hkz⟩
termination_by l _ _ => l.length

theorem dedupByKey_sorted {α β : Type} (k : α → β) [LinearOrder β] :
    ∀ (l : List α), l.Pairwise (fun a b => k a ≤ k b) → SortedKeys k (dedupByKey k l)
  | [], _ => by simp [dedupByKey, SortedKeys]
  | [a], _ => by simp [dedupByKey, SortedKeys]
  | a :: b :: l, hl => by
    by_cases h : k a = k b
    · rw [dedupByKey, if_pos h]
      exact dedupByKey_sorted k (a :: l)
        (hl.sublist (List.cons_sublist_cons.mpr (List.sublist_cons_self b l)))
    · rw [dedupByKey, if_neg h]
      rw [List.pairwise_cons] at hl
      rw [SortedKeys, List.pairwise_cons]
      refine ⟨?_, dedupByKey_sorted k (b :: l) hl.2⟩
      intro y hy
      have hy' : y ∈ b :: l := (dedupByKey_sublist k (b :: l)).subset hy
      have hab : k a ≤ k b := hl.1 b (List.mem_cons_self b l)
      rcases List.mem_cons.mp hy' with rfl | hyl
      · exact lt_of_le_of_ne hab h
      · have hby : k b ≤ k y := (List.pairwise_cons.mp hl.2).1 y hyl
        rcases lt_or_eq_of_le (hl.1 y hy') with hlt | heq
        · exact hlt
        · exact absurd (le_antisymm hab (heq ▸ hby)) h
termination_by l _ => l.length

theorem dedupByKey_find? {α β : Type} (k : α → β) [DecidableEq β] (p : α → Bool)
    (hp : ∀ a b, k a = k b → p a = p b) :
    ∀ (l : List α), (dedupByKey k l).find? p = l.find? p
  | [] => by rw [dedupByKey]
  | [a] => by rw [dedupByKey]
  | a :: b :: l => by
    by_cases hab : k a = k b
    · rw [dedupByKey, if_pos hab, dedupByKey_find? k p hp (a :: l)]
      by_cases hpa : p a = true
      · rw [List.find?_cons_of_pos l hpa, List.find?_cons_of_pos (b :: l) hpa]
      · have hpa' : ¬ p a = true := hpa
        have hpb : ¬ p b = true := by rw [← hp a b hab]; exact hpa
        rw [List.find?_cons_of_neg l hpa', List.find?_cons_of_neg (b :: l) hpa',
          List.find?_cons_of_neg l hpb]
    · rw [dedupByKey, if_neg hab]
      by_cases hpa : p a = true
      · rw [List.find?_cons_of_pos _ hpa, List.find?_cons_of_pos _ hpa]
      · rw [List.find?_cons_of_neg _ hpa, List.find?_cons_of_neg _ hpa,
          dedupByKey_find? k p hp (b :: l)]
termination_by l => l.length

theorem find?_eq_head?_filter {α : Type} (p : α → Bool) :
    ∀ (l : List α), l.find? p = (l.filter p).head?
  | [] => rfl
  | a :: l => by
    by_cases hpa : p a = true
    · rw [List.find?_cons_of_pos _ hpa, List.filter_cons, if_pos hpa, List.head?_cons]
    · rw [List.find?_cons_of_neg _ hpa, List.filter_cons, if_neg hpa,
        find?_eq_head?_filter p l]

theorem keyLe_trans {α β : Type} (k : α → β) [LinearOrder β] (a b c : α)
    (hab : decide (k a ≤ k b) = true) (hbc : decide (k b ≤ k c) = true) :
    decide (k a ≤ k c) = true :=
  decide_eq_true ((of_decide_eq_true hab).trans (of_decide_eq_true hbc))

theorem keyLe_total {α β : Type} (k : α → β) [LinearOrder β] (a b : α) :
    (decide (k a ≤ k b) || decide (k b ≤ k a)) = true := by
  rcases le_total (k a) (k b) with h | h <;> simp [h]

theorem mergeSort_key_sorted {α β : Type} (k : α → β) [LinearOrder β] (l : List α) :
    (l.mergeSort (fun a b => decide (k a ≤ k b))).Pairwise (fun a b => k a ≤ k b) :=
  (List.sorted_mergeSort (keyLe_trans k) (keyLe_total k) l).imp
    (fun h => of_decide_eq_true h)

theorem sortAndDedupList_sorted {α β : Type} (k : α → β) [LinearOrder β] (l : List α) :
    SortedKeys k (sortAndDedupList k l) :=
  dedupByKey_sorted k _ (mergeSort_key_sorted k l)

theorem sortAndDedupList_subset {α β : Type} (k : α → β) [LinearOrder β] (l : List α) :
    ∀ a ∈ sortAndDedupList k l, a ∈ l := by
  intro a ha
  have := (dedupByKey_sublist k _).subset ha
  exact List.mem_mergeSort.mp this

theorem sortAndDedupList_keys {α β : Type} (k : α → β) [LinearOrder β] (l : List α) (q : β) :
    (∃ y ∈ sortAndDedupList k l, k y = q) ↔ ∃ y ∈ l, k y = q := by
  constructor
  · intro ⟨y, hy, hk⟩
    exact ⟨y, sortAndDedupList_subset k l y hy, hk⟩
  · intro ⟨y, hy, hk⟩
    exact dedupByKey_keys k _ q ⟨y, List.mem_mergeSort.mpr hy, hk⟩

/-- C5: constructing a `SmallOrdSet` from an arbitrary collection (possibly
unsorted, with duplicates) via `from_vec`, `from_buf` or `FromIterator` and
reading it back via iteration yields a strictly sorted, duplicate-free
sequence whose elements are drawn from the input and whose keys are exactly
the keys occurring in the input. -/
theorem c5_construction_roundtrip {α β : Type} (k : α → β) [LinearOrder β] (xs : List α) :
    (SmallOrdSet.fromVec k xs).vec.Pairwise (fun a b => k a < k b) ∧
    (SmallOrdSet.fromVec k xs).vec.Pairwise (fun a b => k a ≠ k b) ∧
    (∀ a ∈ (SmallOrdSet.fromVec k xs).vec, a ∈ xs) ∧
    (∀ q, (∃ y ∈ (SmallOrdSet.fromVec k xs).vec, k y = q) ↔ ∃ y ∈ xs, k y = q) ∧
    SmallOrdSet.fromBuf k xs = SmallOrdSet.fromVec k xs ∧
    SmallOrdSet.fromIter k xs = SmallOrdSet.fromVec k xs := by
  have hsorted : SortedKeys k (sortAndDedupList k xs) := sortAndDedupList_sorted k xs
  exact ⟨hsorted, hsorted.imp ne_of_lt, sortAndDedupList_subset k xs,
    sortAndDedupList_keys k xs, rfl, rfl⟩

theorem filter_mergeSort_key {α β : Type} (k : α → β) [LinearOrder β] (q : β) (zs : List α) :
    (zs.mergeSort (fun a b => decide (k a ≤ k b))).filter (fun a => decide (k a = q)) =
      zs.filter (fun a => decide (k a = q)) := by
  have hpair : (zs.filter (fun a => decide (k a = q))).Pairwise
      (fun a b => decide (k a ≤ k b) = true) := by
    apply List.pairwise_of_forall_mem_list
    intro a ha b hb
    have ha' : k a = q := of_decide_eq_true (List.mem_filter.mp ha).2
    have hb' : k b = q := of_decide_eq_true (List.mem_filter.mp hb).2
    exact decide_eq_true (le_of_eq (ha'.trans hb'.symm))
  have h1 : List.Sublist (zs.filter (fun a => decide (k a = q)))
      (zs.mergeSort (fun a b => decide (k a ≤ k b))) :=
    List.sublist_mergeSort (keyLe_trans k) (keyLe_total k) hpair (List.filter_sublist zs)
  have h2 := List.Sublist.filter (fun a => decide (k a = q)) h1
  have h3 : (zs.filter (fun a => decide (k a = q))).filter (fun a => decide (k a = q)) =
      zs.filter (fun a => decide (k a = q)) := by
    rw [List.filter_filter]
    simp only [Bool.and_self]
  rw [h3] at h2
  have hperm : List.Perm
      ((zs.mergeSort (fun a b => decide (k a ≤ k b))).filter (fun a => decide (k a = q)))
      (zs.filter (fun a => decide (k a = q))) :=
    (List.mergeSort_perm zs _).filter _
  exact (List.Sublist.eq_of_length h2 hperm.length_eq.symm).symm

theorem sortAndDedupList_find? {α β : Type} (k : α → β) [LinearOrder β] (q : β) (zs : List α) :
    (sortAndDedupList k zs).find? (fun a => decide (k a = q)) =
      zs.find? (fun a => decide (k a = q)) := by
  rw [sortAndDedupList]
  rw [dedupByKey_find? k (fun a => decide (k a = q))
    (fun a b hab => by show decide (k a = q) = decide (k b = q); rw [hab]) _]
  rw [find?_eq_head?_filter, find?_eq_head?_filter, filter_mergeSort_key]

/-- C6: when elements with equal keys collide in `extend` (and hence in
`append` and bulk construction), the sort-and-dedup pass keeps the
first-encountered one after the stable sort: the surviving representative of
each key is the first element with that key in the concatenated buffer
`self ++ incoming`.  In particular, extending a set with an element equal to
one already stored keeps the originally stored element. -/
theorem c6_extend_stable_tiebreak {α β : Type} (k : α → β) [LinearOrder β]
    (s : SmallOrdSet α) (ys : List α) (q : β) (hwf : SmallOrdSet.Wf k s) :
    ((SmallOrdSet.extend k s ys).vec.find? (fun a => decide (k a = q)) =
      (s.vec ++ ys).find? (fun a => decide (k a = q))) ∧
    (∀ y ∈ s.vec, k y = q →
      (SmallOrdSet.extend k s ys).vec.find? (fun a => decide (k a = q)) = some y) := by
  have hmain : (SmallOrdSet.extend k s ys).vec.find? (fun a => decide (k a = q)) =
      (s.vec ++ ys).find? (fun a => decide (k a = q)) :=
    sortAndDedupList_find? k q (s.vec ++ ys)
  refine ⟨hmain, ?_⟩
  intro y hy hk
  rw [hmain, List.find?_append]
  have hfirst : s.vec.find? (fun a => decide (k a = q)) = some y := by
    cases hfz : s.vec.find? (fun a => decide (k a = q)) with
    | none =>
      rw [List.find?_eq_none] at hfz
      exact absurd (decide_eq_true hk) (hfz y hy)
    | some z =>
      have hz0 : (fun a => decide (k a = q)) z = true :=
        @List.find?_some _ (fun a => decide (k a = q)) z _ hfz
      have hz : k z = q := of_decide_eq_true hz0
      have hzy : z = y :=
        sortedKeys_key_inj k s.vec z y hwf (List.mem_of_find?_eq_some hfz) hy
          (hz.trans hk.symm)
      exact congrArg some hzy
  rw [hfirst]
  rfl

/-- Witness for C6: the map `{1 ↦ 10}` extended with the colliding pair
`(1, 20)` keeps the originally stored pair `(1, 10)`. -/
theorem c6_extend_stable_tiebreak_witness :
    SmallOrdSet.Wf kvpKey
      (SmallOrdSet.fromVecUnchecked [⟨1, 10⟩] : SmallOrdSet (KeyValuePair Int Int)) ∧
    (SmallOrdSet.extend kvpKey
        (SmallOrdSet.fromVecUnchecked [⟨1, 10⟩] : SmallOrdSet (KeyValuePair Int Int))
        [⟨1, 20⟩]).vec.find? (fun a => decide (kvpKey a = 1)) = some ⟨1, 10⟩ :=
  ⟨by decide,
    (c6_extend_stable_tiebreak kvpKey (SmallOrdSet.fromVecUnchecked [⟨1, 10⟩]) [⟨1, 20⟩] 1
        (by decide)).2 ⟨1, 10⟩ (by decide) rfl⟩

/-- C8: `drain(start..stop)` panics exactly when the range is invalid
(`start > stop` or `stop` beyond the length), modelled as `none`; on a valid
range it removes precisely the elements at positions `[start, stop)` of the
sorted order — the yielded elements are those positions of the old buffer and
the remaining buffer is the old one with that segment cut out.  Removal is
part of the state returned by the operation itself, independent of any
consumption of the yielded elements. -/
theorem c8_drain_spec {α : Type} (s : SmallOrdSet α) (start stop : Nat) :
    (SmallOrdSet.drain s start stop = none ↔
      (stop < start ∨ SmallOrdSet.len s < stop)) ∧
    (∀ (t : SmallOrdSet α) (removed : List α),
      SmallOrdSet.drain s start stop = some (t, removed) →
      removed.length = stop - start ∧
      (∀ j, j < stop - start → removed[j]? = s.vec[start + j]?) ∧
      SmallOrdSet.len t = SmallOrdSet.len s - (stop - start) ∧
      (∀ j, j < start → t.vec[j]? = s.vec[j]?) ∧
      (∀ j, start ≤ j → t.vec[j]? = s.vec[j + (stop - start)]?)) := by
  unfold SmallOrdSet.drain SmallOrdSet.len
  by_cases hvalid : start ≤ stop ∧ stop ≤ s.vec.length
  · rw [if_pos hvalid]
    constructor
    · simp only [reduceCtorEq, false_iff]
      omega
    · intro t removed heq
      injection heq with heq
      injection heq with ht hremoved
      subst ht
      subst hremoved
      refine ⟨?_, ?_, ?_, ?_, ?_⟩
      · rw [List.length_take, List.length_drop]
        omega
      · intro j hj
        rw [List.getElem?_take_of_lt hj, List.getElem?_drop]
      · rw [List.length_append, List.length_take, List.length_drop]
        omega
      · intro j hj
        rw [List.getElem?_append_left, List.getElem?_take_of_lt hj]
        rw [List.length_take]
        omega
      · intro j hj
        have hlen : (s.vec.take start).length ≤ j := by
          rw [List.length_take]
          omega
        rw [List.getElem?_append_right hlen, List.getElem?_drop, List.length_take]
        congr 1
        omega
  · rw [if_neg hvalid]
    constructor
    · simp only [true_iff]
      omega
    · intro t removed heq
      cases heq

/-- Witness for C8: draining positions `[1, 3)` from `{10, 20, 30, 40}`
yields `[20, 30]` and leaves `{10, 40}`. -/
theorem c8_drain_spec_witness :
    (SmallOrdSet.drain (SmallOrdSet.fromVecUnchecked [10, 20, 30, 40] : SmallOrdSet Int) 1 3 =
      some (SmallOrdSet.fromVecUnchecked [10, 40], [20, 30])) ∧
    (([20, 30] : List Int).length = 3 - 1 ∧
      (∀ j, j < 3 - 1 → ([20, 30] : List Int)[j]? =
        (SmallOrdSet.fromVecUnchecked [10, 20, 30, 40] : SmallOrdSet Int).vec[1 + j]?) ∧
      SmallOrdSet.len (SmallOrdSet.fromVecUnchecked [10, 40] : SmallOrdSet Int) =
        SmallOrdSet.len (SmallOrdSet.fromVecUnchecked [10, 20, 30, 40] : SmallOrdSet Int) -
          (3 - 1) ∧
      (∀ j, j < 1 → (SmallOrdSet.fromVecUnchecked [10, 40] : SmallOrdSet Int).vec[j]? =
        (SmallOrdSet.fromVecUnchecked [10, 20, 30, 40] : SmallOrdSet Int).vec[j]?) ∧
      (∀ j, 1 ≤ j → (SmallOrdSet.fromVecUnchecked [10, 40] : SmallOrdSet Int).vec[j]? =
        (SmallOrdSet.fromVecUnchecked [10, 20, 30, 40] : SmallOrdSet Int).vec[j + (3 - 1)]?)) :=
  ⟨by decide,
    (c8_drain_spec (SmallOrdSet.fromVecUnchecked [10, 20, 30, 40]) 1 3).2
      (SmallOrdSet.fromVecUnchecked [10, 40]) [20, 30] (by decide)⟩

theorem listEqBy_kvpEqb {K V : Type} [DecidableEq K] :
    ∀ (l₁ l₂ : List (KeyValuePair K V)),
      l₁.map KeyValuePair.key = l₂.map KeyValuePair.key → listEqBy kvpEqb l₁ l₂ = true
  | [], [], _ => rfl
  | [], _ :: _, h => by simp at h
  | _ :: _, [], h => by simp at h
  | a :: as, b :: bs, h => by
    rw [List.map_cons, List.map_cons] at h
    injection h with h1 h2
    rw [listEqBy, listEqBy_kvpEqb as bs h2, kvpEqb]
    simp [h1]

/-- C9 (implicit): two `SmallOrdSet<KeyValuePair<K, V>>` maps holding the
same keys in the same order compare equal under the modelled `==` and feed
identical data to the hasher, even when the associated values differ,
because `KeyValuePair` equality and hashing look only at the key and set
equality compares the backing vectors elementwise. -/
theorem c9_map_eq_ignores_values {K V : Type} [DecidableEq K]
    (m₁ m₂ : SmallOrdSet (KeyValuePair K V))
    (h : m₁.vec.map KeyValuePair.key = m₂.vec.map KeyValuePair.key) :
    SmallOrdSet.beq m₁ m₂ = true ∧ SmallOrdSet.hashData m₁ = SmallOrdSet.hashData m₂ := by
  refine ⟨listEqBy_kvpEqb m₁.vec m₂.vec h, ?_⟩
  unfold SmallOrdSet.hashData
  have hlen : m₁.vec.length = m₂.vec.length := by
    rw [← List.length_map m₁.vec KeyValuePair.key, ← List.length_map m₂.vec KeyValuePair.key, h]
  rw [hlen, h]

/-- Witness for C9: the maps `{1 ↦ 10, 2 ↦ 20}` and `{1 ↦ 99, 2 ↦ 0}` have
the same keys in the same order but different values, and compare equal. -/
theorem c9_map_eq_ignores_values_witness :
    ((SmallOrdSet.fromVecUnchecked [⟨1, 10⟩, ⟨2, 20⟩] :
        SmallOrdSet (KeyValuePair Int Int)).vec.map KeyValuePair.key =
      (SmallOrdSet.fromVecUnchecked [⟨1, 99⟩, ⟨2, 0⟩] :
        SmallOrdSet (KeyValuePair Int Int)).vec.map KeyValuePair.key) ∧
    (SmallOrdSet.beq
        (SmallOrdSet.fromVecUnchecked [⟨1, 10⟩, ⟨2, 20⟩] : SmallOrdSet (KeyValuePair Int Int))
        (SmallOrdSet.fromVecUnchecked [⟨1, 99⟩, ⟨2, 0⟩]) = true ∧
      SmallOrdSet.hashData
        (SmallOrdSet.fromVecUnchecked [⟨1, 10⟩, ⟨2, 20⟩] : SmallOrdSet (KeyValuePair Int Int)) =
      SmallOrdSet.hashData
        (SmallOrdSet.fromVecUnchecked [⟨1, 99⟩, ⟨2, 0⟩] : SmallOrdSet (KeyValuePair Int Int))) :=
  ⟨by decide,
    c9_map_eq_ignores_values (SmallOrdSet.fromVecUnchecked [⟨1, 10⟩, ⟨2, 20⟩])
      (SmallOrdSet.fromVecUnchecked [⟨1, 99⟩, ⟨2, 0⟩]) (by decide)⟩

/-- C10 (implicit): `from_vec_unchecked` performs no validation, sorting or
deduplication, and `into_vec`/`as_slice` expose the backing buffer
unchanged, so `into_vec(from_vec_unchecked(v))` returns `v` exactly as given
for every buffer `v`, sorted or not. -/
theorem c10_unchecked_roundtrip {α : Type} (v : List α) :
    SmallOrdSet.intoVec (SmallOrdSet.fromVecUnchecked v) = v ∧
    SmallOrdSet.asSlice (SmallOrdSet.fromVecUnchecked v) = v :=
  ⟨rfl, rfl⟩

/-- Witness for C5 at the concrete unsorted, duplicate-containing input
`[3, 1, 2, 1]`. -/
theorem c5_construction_roundtrip_witness :
    (SmallOrdSet.fromVec (fun n : Int => n) [3, 1, 2, 1]).vec.Pairwise
      (fun a b => (fun n : Int => n) a < (fun n : Int => n) b) ∧
    (SmallOrdSet.fromVec (fun n : Int => n) [3, 1, 2, 1]).vec.Pairwise
      (fun a b => (fun n : Int => n) a ≠ (fun n : Int => n) b) ∧
    (∀ a ∈ (SmallOrdSet.fromVec (fun n : Int => n) [3, 1, 2, 1]).vec,
      a ∈ ([3, 1, 2, 1] : List Int)) ∧
    (∀ q, (∃ y ∈ (SmallOrdSet.fromVec (fun n : Int => n) [3, 1, 2, 1]).vec,
        (fun n : Int => n) y = q) ↔ ∃ y ∈ ([3, 1, 2, 1] : List Int), (fun n : Int => n) y = q) ∧
    SmallOrdSet.fromBuf (fun n : Int => n) [3, 1, 2, 1] =
      SmallOrdSet.fromVec (fun n : Int => n) [3, 1, 2, 1] ∧
    SmallOrdSet.fromIter (fun n : Int => n) [3, 1, 2, 1] =
      SmallOrdSet.fromVec (fun n : Int => n) [3, 1, 2, 1] :=
  c5_construction_roundtrip (fun n : Int => n) [3, 1, 2, 1]
